import Mathlib

/-!
# NinjaMediaManager — subtitle analysis and mutation engine, formalised

A shallow embedding of the subtitle engine of NinjaMediaManager: the
timed-entry data model, timecode parsing/formatting, the interval-collision
engine, the stamp manager, the issue scanner (character replacements,
invalid-character and spelling detection), the SDH remover, and two pieces
of frontend state logic (the task-log panel event handler and the
spell-check issue-index repositioning).

The backend engine itself is not part of the repository snapshot (only its
TypeScript type declarations in `frontend/src/types/api.ts` and its callers
in the React components are); those components are modelled from the
specification, as marked on each definition.  The frontend state logic
(`handleEvent` in `LogPanel`, the `spellCheckMutation` success handler in
`SubtitleInfo`) is translated directly from the TypeScript source.
-/

namespace NMM

/-! ## Characters and digits -/

/-- The character for a decimal digit `d < 10` (code point `48 + d`). -/
def d2c (d : Nat) : Char := Char.ofNat (48 + d)

/-- The numeric value of a decimal digit character. -/
def c2d (c : Char) : Nat := c.toNat - 48

/-- Decimal value of a digit string, most significant first. -/
def charsToNat (cs : List Char) : Nat :=
  cs.foldl (fun a c => a * 10 + c2d c) 0

/-- Decimal digits of `n`, most significant first (fuel-driven so that it
reduces by `decide`; the fuel `n + 1` always suffices). -/
def natCharsAux : Nat → Nat → List Char
  | 0, _ => []
  | fuel + 1, n => if n < 10 then [d2c n] else natCharsAux fuel (n / 10) ++ [d2c (n % 10)]

/-- Decimal digits of `n`, most significant first. -/
def natChars (n : Nat) : List Char := natCharsAux (n + 1) n

/-- A line made only of whitespace (or empty). -/
def isBlankLine (l : List Char) : Bool := l.all Char.isWhitespace

/-! ## Splitting and joining lines -/

/-- Split a character list at every newline.  Never returns `[]`. -/
def splitNlChars : List Char → List (List Char)
  | [] => [[]]
  | c :: cs =>
    if c = '\n' then [] :: splitNlChars cs
    else
      match splitNlChars cs with
      | [] => [[c]]
      | l :: ls => (c :: l) :: ls

/-- Join lines with a newline between consecutive lines. -/
def joinNlChars : List (List Char) → List Char
  | [] => []
  | [l] => l
  | l :: ls => l ++ '\n' :: joinNlChars ls

/-! ## Data model (spec §3)

Modelled from the spec: `SubtitleEntry` is
`{ index, start : Timecode, end : Timecode, text }`; a `Timecode` is an
integral number of milliseconds (`Nat`, hence non-negative); a
`SubtitleDocument` is the ordered list of entries.  The field `end` is a
Lean keyword, so it is named `stop` here. -/

structure SubtitleEntry where
  index : Nat
  start : Nat
  stop : Nat
  text : String
deriving DecidableEq

abbrev SubtitleDocument := List SubtitleEntry

/-- The timing-and-text core of an entry, i.e. everything but the index. -/
def entryCore (e : SubtitleEntry) : Nat × Nat × String := (e.start, e.stop, e.text)

/-! ## Interval collision engine (spec §4.2)

Modelled from the spec: the backend collision engine is not under `src/`
(only `CheckStampCollisionResponse` in `types/api.ts` and the
`checkCollisionMutation` caller are).  The spec: an interval `[a,b)`
collides with entry `[c,d)` iff `a < d AND c < b`; touching endpoints do
not collide; the scan is O(n) over all entries; `stampAlreadyPresent` is an
exact-match test for a reserved marker on entry text. -/

/-- Modelled from the spec: half-open overlap test, `[a,b)` against `[c,d)`. -/
def intervalCollides (a b c d : Nat) : Bool := decide (a < d) && decide (c < b)

/-- Modelled from the spec: the reserved stamp text signature.  The exact
marker string is backend-internal; the frontend default stamp text ends in
this product name, which stands in for the reserved signature. -/
def stampMarker : String := "NinjaMediaManager"

/-- `pat` occurs as a contiguous substring of `s`. -/
def containsMarkerChars (pat : List Char) (s : List Char) : Bool :=
  s.tails.any (fun t => pat.isPrefixOf t)

/-- Modelled from the spec: an entry is recognised as the creator stamp when
the reserved marker occurs (exactly) in its text. -/
def isStampEntry (e : SubtitleEntry) : Bool :=
  containsMarkerChars stampMarker.data e.text.data

/-- Does the candidate interval `[a,b)` collide with entry `e`? -/
def entryCollides (a b : Nat) (e : SubtitleEntry) : Bool :=
  intervalCollides a b e.start e.stop

structure StampCollisionResult where
  collides : Bool
  collidingIndices : List Nat
  stampAlreadyPresent : Bool
deriving DecidableEq

/-- Modelled from the spec: `check(document, candidateStart, candidateEnd)`,
scanning every entry with the half-open overlap test and collecting the
indices of colliding entries. -/
def checkStampCollision (doc : SubtitleDocument) (a b : Nat) : StampCollisionResult :=
  { collides := doc.any (entryCollides a b)
    collidingIndices := (doc.filter (entryCollides a b)).map (fun e => e.index)
    stampAlreadyPresent := doc.any isStampEntry }

/-! ## Timecode (spec §4.1, §3)

Modelled from the spec: `Timecode.parse` accepts exactly the fixed textual
format `HH:MM:SS,mmm` (two/two/two/three digits, minutes and seconds below
60) and `Timecode.format` is the zero-padded inverse.  The backend
implementation is not under `src/`; `AddStampRequest.start_time` in
`types/api.ts` documents the format. -/

inductive SubtitleError where
  | formatError
  | duplicateIndexError
  | collisionError (collidingIndices : List Nat)
  | stampPresentError
  | notFoundError
deriving DecidableEq

/-- Two-digit zero-padded decimal (for values below 100). -/
def pad2 (n : Nat) : List Char := [d2c (n / 10), d2c (n % 10)]

/-- Three-digit zero-padded decimal (for values below 1000). -/
def pad3 (n : Nat) : List Char := [d2c (n / 100), d2c (n / 10 % 10), d2c (n % 10)]

/-- The 12 characters `HH:MM:SS,mmm` of a timecode of `t` milliseconds. -/
def timecodeChars (t : Nat) : List Char :=
  pad2 (t / 3600000) ++ [':'] ++ pad2 (t / 60000 % 60) ++ [':'] ++
    pad2 (t / 1000 % 60) ++ [','] ++ pad3 (t % 1000)

/-- Modelled from the spec: `Timecode.format`, zero-padded,
comma-millisecond-separated. -/
def Timecode.format (t : Nat) : String := String.mk (timecodeChars t)

/-- Parse the character shape `HH:MM:SS,mmm`: exact digit counts, minute and
second fields below 60. -/
def parseTimecodeChars : List Char → Option Nat
  | [h1, h2, ':', m1, m2, ':', s1, s2, ',', x1, x2, x3] =>
    if h1.isDigit ∧ h2.isDigit ∧ m1.isDigit ∧ m2.isDigit ∧ s1.isDigit ∧ s2.isDigit ∧
        x1.isDigit ∧ x2.isDigit ∧ x3.isDigit then
      let m := c2d m1 * 10 + c2d m2
      let s := c2d s1 * 10 + c2d s2
      if m < 60 ∧ s < 60 then
        some ((c2d h1 * 10 + c2d h2) * 3600000 + m * 60000 + s * 1000 +
          (c2d x1 * 100 + c2d x2 * 10 + c2d x3))
      else none
    else none
  | _ => none

/-- Modelled from the spec: `Timecode.parse`, failing with `FormatError` on
malformed input (wrong digit counts, out-of-range minute/second values,
negative values — unrepresentable in the digit format). -/
def Timecode.parse (s : String) : Except SubtitleError Nat :=
  match parseTimecodeChars s.data with
  | some t => .ok t
  | none => .error .formatError

/-- The spec's words for a well-formed timecode string: it matches
`HH:MM:SS,mmm` with correct digit counts and minute and second fields below
60 (stated independently of the parser, for the refinement theorem). -/
def WellFormedTimecode (s : String) : Prop :=
  ∃ h1 h2 m1 m2 s1 s2 x1 x2 x3 : Char,
    s.data = [h1, h2, ':', m1, m2, ':', s1, s2, ',', x1, x2, x3] ∧
    (h1.isDigit ∧ h2.isDigit ∧ m1.isDigit ∧ m2.isDigit ∧ s1.isDigit ∧ s2.isDigit ∧
      x1.isDigit ∧ x2.isDigit ∧ x3.isDigit) ∧
    c2d m1 * 10 + c2d m2 < 60 ∧ c2d s1 * 10 + c2d s2 < 60

/-! ## Character replacements (spec §4.3 step 1)

Modelled from the spec: the backend scanner is not under `src/` (only
`SpellCheckRequest`/`SpellCheckResponse` in `types/api.ts` and the
`spellCheckMutation` caller are).  Every configured replacement pair is
applied in the order given, each a literal substring substitution; the
total number of substitutions across the whole document is counted and the
document is mutated in place. -/

/-- Replace every (leftmost, non-overlapping) occurrence of `pat` in the
character list by `rep`, counting occurrences.  An empty `pat` replaces
nothing.  The fuel is the list length, so the definition is structural and
reduces by `decide`. -/
def replaceCountAux (pat rep : List Char) : Nat → List Char → List Char × Nat
  | _, [] => ([], 0)
  | 0, cs => (cs, 0)
  | fuel + 1, c :: cs =>
    if pat ≠ [] ∧ pat.isPrefixOf (c :: cs) then
      let r := replaceCountAux pat rep fuel ((c :: cs).drop pat.length)
      (rep ++ r.1, r.2 + 1)
    else
      let r := replaceCountAux pat rep fuel cs
      (c :: r.1, r.2)

/-- One literal substring substitution over a string, with its count. -/
def replaceCount (pat rep s : String) : String × Nat :=
  let r := replaceCountAux pat.data rep.data s.data.length s.data
  (String.mk r.1, r.2)

/-- Modelled from the spec: apply every configured replacement pair in the
order given, accumulating the substitution count. -/
def applyReplacements (reps : List (String × String)) (s : String) : String × Nat :=
  reps.foldl
    (fun acc pr =>
      let r := replaceCount pr.1 pr.2 acc.1
      (r.1, acc.2 + r.2))
    (s, 0)

/-- Modelled from the spec: the replacement pass over the whole document —
mutate each entry's text in place and count total substitutions. -/
def scanReplaceDoc (reps : List (String × String)) : SubtitleDocument → SubtitleDocument × Nat
  | [] => ([], 0)
  | e :: es =>
    let r := applyReplacements reps e.text
    let rest := scanReplaceDoc reps es
    ({ e with text := r.1 } :: rest.1, r.2 + rest.2)

/-! ## Issue scanner (spec §4.3)

Modelled from the spec: per entry in ascending index order, after the
replacement pass, each disallowed character not in the ignore list produces
one `InvalidCharacter` issue at its exact offset; each word absent from the
dictionary and not in the ignore list produces one `Spelling` issue with
the dictionary's ranked suggestions; issues are returned ordered by
`(entryIndex ascending, position ascending)`. -/

inductive IssueKind where
  | invalidCharacter
  | spelling
deriving DecidableEq

structure Issue where
  kind : IssueKind
  entryIndex : Nat
  position : Nat
  payload : String
  suggestions : List String
deriving DecidableEq

/-- Modelled from the spec: the scan configuration (the dictionary is the
external polymorphic capability of §9, selected per language). -/
structure ScanConfig where
  replacementsEnabled : Bool
  replacements : List (String × String)
  ignoreEnabled : Bool
  ignoreList : List String
deriving DecidableEq

structure Dictionary where
  lookup : String → Bool
  suggest : String → List String

/-- Modelled from the spec: the allow-listed character set — letters,
digits, standard punctuation, whitespace (the exact set is an open question
of the spec; this is its stated core). -/
def allowedChar (c : Char) : Bool :=
  c.isAlpha || c.isDigit || c.isWhitespace ||
    [' ', '.', ',', '!', '?', ';', ':', '-', '\'', '"', '(', ')', '[', ']', '…'].contains c

/-- Is this one-character-or-word token in the (enabled) ignore list? -/
def isIgnored (cfg : ScanConfig) (tok : String) : Bool :=
  cfg.ignoreEnabled && cfg.ignoreList.contains tok

/-- Invalid-character issues of one entry text, left to right, at exact
offsets. -/
def invalidCharIssues (cfg : ScanConfig) (idx : Nat) : List Char → Nat → List Issue
  | [], _ => []
  | c :: cs, pos =>
    (if allowedChar c || isIgnored cfg (String.mk [c]) then []
     else [{ kind := .invalidCharacter, entryIndex := idx, position := pos,
             payload := String.mk [c], suggestions := [] }]) ++
      invalidCharIssues cfg idx cs (pos + 1)

/-- A word character (token boundary = whitespace/punctuation, so words are
maximal letter runs). -/
def isWordChar (c : Char) : Bool := c.isAlpha

/-- Tokenize text into `(offset, word)` pairs, fuel-driven on the list
length so the definition is structural. -/
def tokenizeAux : Nat → List Char → Nat → List (Nat × List Char)
  | 0, _, _ => []
  | _ + 1, [], _ => []
  | fuel + 1, c :: cs, pos =>
    if isWordChar c then
      let w := cs.takeWhile isWordChar
      (pos, c :: w) :: tokenizeAux fuel (cs.dropWhile isWordChar) (pos + 1 + w.length)
    else tokenizeAux fuel cs (pos + 1)

def tokenize (cs : List Char) : List (Nat × List Char) := tokenizeAux cs.length cs 0

/-- Spelling issues of one entry text: words absent from the dictionary and
not ignored, with the dictionary's suggestions. -/
def spellingIssues (cfg : ScanConfig) (dict : Dictionary) (idx : Nat) (cs : List Char) : List Issue :=
  (tokenize cs).filterMap
    (fun t =>
      let w := String.mk t.2
      if dict.lookup w || isIgnored cfg w then none
      else some { kind := .spelling, entryIndex := idx, position := t.1,
                  payload := w, suggestions := dict.suggest w })

/-- Position order on issues (for the per-entry merge). -/
def posLE (a b : Issue) : Prop := a.position ≤ b.position

instance : DecidableRel posLE := fun a b => Nat.decLe a.position b.position

instance : IsTotal Issue posLE := ⟨fun a b => Nat.le_total a.position b.position⟩

instance : IsTrans Issue posLE := ⟨fun _ _ _ => Nat.le_trans⟩

/-- All issues of one entry, ordered by position. -/
def entryIssues (cfg : ScanConfig) (dict : Dictionary) (e : SubtitleEntry) : List Issue :=
  List.insertionSort posLE
    (invalidCharIssues cfg e.index e.text.data 0 ++ spellingIssues cfg dict e.index e.text.data)

/-- Index order on entries (the scanner processes entries in ascending
index order). -/
def idxLE (a b : SubtitleEntry) : Prop := a.index ≤ b.index

instance : DecidableRel idxLE := fun a b => Nat.decLe a.index b.index

instance : IsTotal SubtitleEntry idxLE := ⟨fun a b => Nat.le_total a.index b.index⟩

instance : IsTrans SubtitleEntry idxLE := ⟨fun _ _ _ => Nat.le_trans⟩

structure ScanResult where
  doc : SubtitleDocument
  issues : List Issue
  replacementsMade : Nat
  invalidCharCount : Nat
  spellingCount : Nat

/-- Modelled from the spec: `scan(document, config)` — one combined
operation: the replacement pass mutates the document, then the (possibly
modified) text of every entry, taken in ascending index order, is scanned
for invalid characters and misspelled words; the issue list is ordered by
`(entryIndex, position)` and partitioned into the two counts. -/
def scan (cfg : ScanConfig) (dict : Dictionary) (doc : SubtitleDocument) : ScanResult :=
  let rep := if cfg.replacementsEnabled then scanReplaceDoc cfg.replacements doc else (doc, 0)
  let issues := (List.insertionSort idxLE rep.1).flatMap (entryIssues cfg dict)
  { doc := rep.1
    issues := issues
    replacementsMade := rep.2
    invalidCharCount := issues.countP (fun i => i.kind = .invalidCharacter)
    spellingCount := issues.countP (fun i => i.kind = .spelling) }

/-- The `(entryIndex ascending, position ascending)` issue order. -/
def issueLex (a b : Issue) : Prop :=
  a.entryIndex < b.entryIndex ∨ (a.entryIndex = b.entryIndex ∧ a.position ≤ b.position)

/-! ## SDH remover (spec §4.5)

Modelled from the spec: the backend SDH remover is not under `src/` (only
`SDHRemovalRequest`/`SDHRemovalResponse` in `types/api.ts` are).  For the
`brackets` format every bracketed span is deleted from an entry's text; an
entry whose text becomes empty is deleted from the document
(`entriesRemoved`), an entry whose text changes but stays non-empty counts
in `entriesModified`, and `totalRemovals` counts deleted spans. -/

/-- Delete every `[...]` span (opening bracket through the next closing
bracket); an unmatched opening bracket is kept as-is.  Returns the
remaining characters and the number of spans deleted.  Fuel-driven on the
list length. -/
def removeBracketSpansAux : Nat → List Char → List Char × Nat
  | _, [] => ([], 0)
  | 0, cs => (cs, 0)
  | fuel + 1, c :: cs =>
    if c = '[' ∧ cs.contains ']' then
      let r := removeBracketSpansAux fuel ((cs.dropWhile (fun x => x ≠ ']')).drop 1)
      (r.1, r.2 + 1)
    else
      let r := removeBracketSpansAux fuel cs
      (c :: r.1, r.2)

/-- Whitespace-trim a line on both ends. -/
def trimChars (cs : List Char) : List Char :=
  ((cs.dropWhile Char.isWhitespace).reverse.dropWhile Char.isWhitespace).reverse

/-- After span removal, trim every line and drop lines left blank. -/
def cleanupText (cs : List Char) : List Char :=
  joinNlChars (((splitNlChars cs).map trimChars).filter (fun l => l ≠ []))

/-- Modelled from the spec: process one entry text for `format = brackets`;
when `removeDanglingDashes` is set, a leading dash-marker left without a
paired counterpart (a single remaining line starting with `-`) is also
deleted and counted within `totalRemovals`. -/
def sdhProcessText (removeDanglingDashes : Bool) (s : String) : String × Nat :=
  let r := removeBracketSpansAux s.data.length s.data
  let cleaned := cleanupText r.1
  match removeDanglingDashes, cleaned with
  | true, '-' :: rest =>
    if (splitNlChars cleaned).length = 1 then (String.mk (trimChars rest), r.2 + 1)
    else (String.mk cleaned, r.2)
  | _, _ => (String.mk cleaned, r.2)

structure SDHRemovalResult where
  entriesRemoved : Nat
  entriesModified : Nat
  totalRemovals : Nat
deriving DecidableEq

/-- Modelled from the spec: `removeSDH(document, brackets,
removeDanglingDashes)` — mutate the document in place, deleting entries
whose text becomes empty and counting modified entries and removed spans. -/
def removeSDHDoc (removeDanglingDashes : Bool) :
    SubtitleDocument → SubtitleDocument × SDHRemovalResult
  | [] => ([], ⟨0, 0, 0⟩)
  | e :: es =>
    let p := sdhProcessText removeDanglingDashes e.text
    let rest := removeSDHDoc removeDanglingDashes es
    if p.1 = "" then
      (rest.1, { rest.2 with entriesRemoved := rest.2.entriesRemoved + 1,
                             totalRemovals := rest.2.totalRemovals + p.2 })
    else if p.1 ≠ e.text then
      ({ e with text := p.1 } :: rest.1,
        { rest.2 with entriesModified := rest.2.entriesModified + 1,
                      totalRemovals := rest.2.totalRemovals + p.2 })
    else
      (e :: rest.1, { rest.2 with totalRemovals := rest.2.totalRemovals + p.2 })

/-! ## Stamp manager (spec §4.4)

Modelled from the spec: the backend stamp manager is not under `src/` (only
`AddStampRequest`/`AddStampResponse` in `types/api.ts` and the
`addStampMutation`/`removeStampMutation` callers are).  `addStamp` fails
without mutating the document when the collision check reports any
collision or a stamp is already present; `removeStamp` deletes the entry
matching the reserved marker, failing with `NotFoundError` when none
exists. -/

/-- Modelled from the spec: insert a new entry carrying the text tagged
with the reserved stamp marker, guarded by the collision check and the
at-most-one-stamp idempotency guard. -/
def addStamp (doc : SubtitleDocument) (a b : Nat) (text : String) :
    Except SubtitleError SubtitleDocument :=
  let res := checkStampCollision doc a b
  if res.stampAlreadyPresent then .error .stampPresentError
  else if res.collides then .error (.collisionError res.collidingIndices)
  else .ok (doc ++ [{ index := doc.length + 1, start := a, stop := b,
                      text := stampMarker ++ "\n" ++ text }])

/-- Modelled from the spec: locate the entry matching the reserved stamp
marker and delete it; fail with `NotFoundError` when none exists. -/
def removeStamp (doc : SubtitleDocument) : Except SubtitleError SubtitleDocument :=
  if doc.any isStampEntry then .ok (doc.eraseP isStampEntry)
  else .error .notFoundError

/-- The in-memory document after an `addStamp` call: unchanged on any
error (atomicity, spec §7). -/
def docAfterAddStamp (doc : SubtitleDocument) (a b : Nat) (text : String) : SubtitleDocument :=
  match addStamp doc a b text with
  | .ok d => d
  | .error _ => doc

/-- Number of stamp entries in a document. -/
def stampCount (doc : SubtitleDocument) : Nat := doc.countP (fun e => isStampEntry e)

/-! ## Timed-entry model: parse and serialize (spec §4.1)

Modelled from the spec: the backend parser/serializer is not under `src/`.
The on-disk format is the index/time/text block structure: an index line,
a `HH:MM:SS,mmm --> HH:MM:SS,mmm` time line, one or more non-blank text
lines, and a blank separator line.  Parsing tolerates trailing whitespace
and blank separator lines and rejects duplicate index numbers with
`DuplicateIndexError`; serialization renumbers entries `1..N` in ascending
`start` order at write time, regardless of prior indices. -/

/-- Start order on entries (for the write-time sort). -/
def startLE (a b : SubtitleEntry) : Prop := a.start ≤ b.start

instance : DecidableRel startLE := fun a b => Nat.decLe a.start b.start

instance : IsTotal SubtitleEntry startLE := ⟨fun a b => Nat.le_total a.start b.start⟩

instance : IsTrans SubtitleEntry startLE := ⟨fun _ _ _ => Nat.le_trans⟩

/-- Renumber entries `i, i+1, ...` in list order. -/
def renumberFrom : Nat → SubtitleDocument → SubtitleDocument
  | _, [] => []
  | i, e :: es => { e with index := i } :: renumberFrom (i + 1) es

/-- Write-time normalization: sort by ascending `start`, renumber `1..N`. -/
def normalizeDoc (doc : SubtitleDocument) : SubtitleDocument :=
  renumberFrom 1 (List.insertionSort startLE doc)

/-- The time line of a block: `HH:MM:SS,mmm --> HH:MM:SS,mmm`. -/
def timeLineChars (a b : Nat) : List Char :=
  timecodeChars a ++ [' ', '-', '-', '>', ' '] ++ timecodeChars b

/-- The lines of one serialized block: index, time line, text lines. -/
def renderBlock (e : SubtitleEntry) : List (List Char) :=
  natChars e.index :: timeLineChars e.start e.stop :: splitNlChars e.text.data

/-- All lines of the serialized document: each block followed by a blank
separator line. -/
def renderLines (doc : SubtitleDocument) : List (List Char) :=
  doc.flatMap (fun e => renderBlock e ++ [[]])

/-- Modelled from the spec: `serialize(document)`, renumbering `1..N` in
ascending `start` order at write time. -/
def serialize (doc : SubtitleDocument) : String :=
  String.mk (joinNlChars (renderLines (normalizeDoc doc)))

/-- An index line: non-empty, all digits. -/
def parseIndexLine (l : List Char) : Option Nat :=
  if l ≠ [] ∧ l.all Char.isDigit then some (charsToNat l) else none

/-- A time line: two 12-character timecodes around a literal ` --> `. -/
def parseTimeLine (l : List Char) : Option (Nat × Nat) :=
  match parseTimecodeChars (l.take 12), parseTimecodeChars (l.drop 17) with
  | some a, some b =>
    if (l.drop 12).take 5 = [' ', '-', '-', '>', ' '] ∧ l.length = 29 then some (a, b)
    else none
  | _, _ => none

/-- Parse the block structure from a list of lines, skipping blank
separator lines.  Fuel-driven on the number of lines (the fuel is always at
least the list length at every call from `parse`, so the
fuel-exhaustion arm is never taken there). -/
def parseBlocks : Nat → List (List Char) → Except SubtitleError (List SubtitleEntry)
  | _, [] => .ok []
  | 0, _ :: _ => .error .formatError
  | fuel + 1, l :: rest =>
    if isBlankLine l then parseBlocks fuel rest
    else
      match rest with
      | [] => .error .formatError
      | timeL :: rest2 =>
        match parseIndexLine l, parseTimeLine timeL with
        | some idx, some ab =>
          let textLs := rest2.takeWhile (fun x => !isBlankLine x)
          if textLs = [] then .error .formatError
          else
            match parseBlocks fuel (rest2.dropWhile (fun x => !isBlankLine x)) with
            | .ok es =>
              .ok ({ index := idx, start := ab.1, stop := ab.2,
                     text := String.mk (joinNlChars textLs) } :: es)
            | .error err => .error err
        | _, _ => .error .formatError

/-- Modelled from the spec: `parse(bytes)` — fails with `FormatError` when
the stream does not match the index/time/text block structure, tolerates
trailing whitespace and blank separator lines, and rejects duplicate index
numbers with `DuplicateIndexError`. -/
def parse (s : String) : Except SubtitleError SubtitleDocument :=
  match parseBlocks (splitNlChars s.data).length (splitNlChars s.data) with
  | .ok es =>
    if (es.map (fun e => e.index)).Nodup then .ok es else .error .duplicateIndexError
  | .error err => .error err

/-- A valid entry (spec §3 plus what any block format forces on text):
`start < end`, times below 100 hours (the fixed two-digit hour field), and
every line of the text non-blank (a blank line would end the block). -/
def ValidEntry (e : SubtitleEntry) : Prop :=
  e.start < e.stop ∧ e.stop < 360000000 ∧
    ∀ l ∈ splitNlChars e.text.data, isBlankLine l = false

instance (e : SubtitleEntry) : Decidable (ValidEntry e) := by
  unfold ValidEntry; infer_instance

/-- A valid document: every entry valid. -/
def ValidDoc (doc : SubtitleDocument) : Prop := ∀ e ∈ doc, ValidEntry e

instance (doc : SubtitleDocument) : Decidable (ValidDoc doc) := by
  unfold ValidDoc; infer_instance

/-! ## Frontend: task-log panel event handler

Translated from `handleEvent` in the `LogPanel` component (the SSE task
stream reducer): create/start events upsert the task, keeping only the last
10 tasks on append; completion, failure, log and progress events map the
matching task in place. -/

structure LogEntry where
  timestamp : String
  message : String
  level : String
deriving DecidableEq

structure Task where
  id : String
  name : String
  status : String
  progress : Int
  logs : List LogEntry
deriving DecidableEq

inductive TaskEvent where
  | taskState (t : Task)
  | taskCreated (t : Task)
  | taskStarted (t : Task)
  | taskCompleted (t : Task)
  | taskFailed (t : Task)
  | log (taskId : String) (entry : LogEntry)
  | progress (taskId : String) (p : Int)

/-- JavaScript `array.slice(-10)`: the last 10 elements. -/
def sliceLast10 (l : List Task) : List Task := l.drop (l.length - 10)

/-- The `task_state`/`task_created`/`task_started` branch of `handleEvent`:
replace the matching task, or append and keep the last 10. -/
def upsertTask (t : Task) (prev : List Task) : List Task :=
  if prev.any (fun x => x.id = t.id) then
    prev.map (fun x => if x.id = t.id then t else x)
  else sliceLast10 (prev ++ [t])

/-- `handleEvent` from `LogPanel`, as a state updater on the task list. -/
def handleEvent : TaskEvent → List Task → List Task
  | .taskState t, prev => upsertTask t prev
  | .taskCreated t, prev => upsertTask t prev
  | .taskStarted t, prev => upsertTask t prev
  | .taskCompleted t, prev => prev.map (fun x => if x.id = t.id then t else x)
  | .taskFailed t, prev => prev.map (fun x => if x.id = t.id then t else x)
  | .log tid entry, prev =>
    prev.map (fun x => if x.id = tid then { x with logs := x.logs ++ [entry] } else x)
  | .progress tid p, prev =>
    prev.map (fun x => if x.id = tid then { x with progress := p } else x)

/-! ## Frontend: spell-check issue-index repositioning

Translated from the `onSuccess` handler of `spellCheckMutation` in the
`SubtitleInfo` component, for the case where an edit just happened
(`editedSubtitleIndexRef` non-null): find the first issue on the edited
subtitle, else the first on a later subtitle, else clamp the previous
position into the new list, and clamp the result below at zero. -/

structure UIIssue where
  index : Nat
  position : Nat
  text : String
deriving DecidableEq

/-- JavaScript `array.findIndex`: first matching index, `-1` when none. -/
def jsFindIndex (p : UIIssue → Bool) (l : List UIIssue) : Int :=
  match l.findIdx? p with
  | some i => (i : Int)
  | none => -1

/-- The issue-index repositioning after a spell-check refresh triggered by
an edit of subtitle `editedIndex`. -/
def repositionIssueIndex (newIssues : List UIIssue) (editedIndex : Nat)
    (currentIssueIndex : Int) : Int :=
  let i1 := jsFindIndex (fun issue => issue.index == editedIndex) newIssues
  let i2 := if i1 = -1 then jsFindIndex (fun issue => editedIndex < issue.index) newIssues else i1
  let i3 :=
    if i2 = -1 ∧ 0 < newIssues.length then
      min currentIssueIndex ((newIssues.length : Int) - 1)
    else i2
  max 0 i3

deriving instance DecidableEq for Except

/-- A scan configuration with everything switched off (for witnesses). -/
def plainScanConfig : ScanConfig :=
  { replacementsEnabled := false, replacements := [], ignoreEnabled := false, ignoreList := [] }

/-- A dictionary that knows no words and offers no suggestions. -/
def emptyDict : Dictionary := { lookup := fun _ => false, suggest := fun _ => [] }

/-! ## Basic lemmas: digits and characters -/

theorem c2d_lt_ten {c : Char} (h : c.isDigit = true) : c2d c < 10 := by
simp only [Char.isDigit, ge_iff_le, decide_eq_true_eq, Bool.and_eq_true] at h
obtain ⟨h1, h2⟩ := h
have e1 : c.val.toNat ≤ 57 := by exact_mod_cast h2
simp only [c2d, Char.toNat]
omega

theorem c2d_ge_of_isDigit {c : Char} (h : c.isDigit = true) :
    48 ≤ c.toNat ∧ c.toNat ≤ 57 := by
simp only [Char.isDigit, ge_iff_le, decide_eq_true_eq, Bool.and_eq_true] at h
obtain ⟨h1, h2⟩ := h
exact ⟨by exact_mod_cast h1, by exact_mod_cast h2⟩

theorem isDigit_d2c {d : Nat} (h : d < 10) : (d2c d).isDigit = true := by
interval_cases d <;> decide

theorem c2d_d2c {d : Nat} (h : d < 10) : c2d (d2c d) = d := by
interval_cases d <;> decide

theorem not_whitespace_of_isDigit {c : Char} (h : c.isDigit = true) :
    c.isWhitespace = false := by
cases hw : c.isWhitespace with
| false => rfl
| true =>
  exfalso
  simp only [Char.isWhitespace, Bool.or_eq_true, decide_eq_true_eq] at hw
  rcases hw with ((rfl | rfl) | rfl) | rfl <;> exact absurd h (by decide)

theorem ne_nl_of_isDigit {c : Char} (h : c.isDigit = true) : c ≠ '\n' := by
rintro rfl
exact absurd h (by decide)

/-! ## C1: half-open interval collision -/

/-- C1: for every document and candidate interval `[a,b)`, the collision
check reports a collision with an existing entry `[c,d)` exactly when
`a < d` and `c < b`; touching endpoints do not collide, so `[5000,8000)`
does not collide with `[8000,9000)` or `[2000,5000)` but does collide with
`[7000,8500)`. -/
theorem collision_halfopen_c1 :
    (∀ a b c d : Nat, intervalCollides a b c d = true ↔ a < d ∧ c < b) ∧
    (∀ (doc : SubtitleDocument) (a b : Nat),
      (checkStampCollision doc a b).collides = true ↔
        ∃ e ∈ doc, a < e.stop ∧ e.start < b) ∧
    (∀ (doc : SubtitleDocument) (a b i : Nat),
      i ∈ (checkStampCollision doc a b).collidingIndices ↔
        ∃ e ∈ doc, e.index = i ∧ a < e.stop ∧ e.start < b) ∧
    intervalCollides 5000 8000 8000 9000 = false ∧
    intervalCollides 5000 8000 2000 5000 = false ∧
    intervalCollides 5000 8000 7000 8500 = true := by
refine ⟨?_, ?_, ?_, by decide, by decide, by decide⟩
· intro a b c d
  simp [intervalCollides]
· intro doc a b
  simp [checkStampCollision, List.any_eq_true, entryCollides, intervalCollides]
· intro doc a b i
  simp only [checkStampCollision, List.mem_map, List.mem_filter, entryCollides,
    intervalCollides, Bool.and_eq_true, decide_eq_true_eq]
  constructor
  · rintro ⟨e, ⟨he, h1, h2⟩, rfl⟩
    exact ⟨e, he, rfl, h1, h2⟩
  · rintro ⟨e, he, rfl, h1, h2⟩
    exact ⟨e, ⟨he, h1, h2⟩, rfl⟩

/-! ## C9: task-log panel keeps at most 10 tasks -/

/-- C9: every event branch of `handleEvent` preserves the at-most-10-tasks
invariant: the appending branch truncates to the last 10 tasks, and the
completion, failure, log and progress branches map entries in place without
changing the list's length. -/
theorem logpanel_task_cap_c9 :
    (∀ (ev : TaskEvent) (prev : List Task),
      prev.length ≤ 10 → (handleEvent ev prev).length ≤ 10) ∧
    (∀ (t : Task) (prev : List Task), (∀ x ∈ prev, x.id ≠ t.id) →
      handleEvent (.taskCreated t) prev = sliceLast10 (prev ++ [t]) ∧
        (handleEvent (.taskCreated t) prev).length ≤ 10) ∧
    (∀ (t : Task) (prev : List Task),
      (handleEvent (.taskCompleted t) prev).length = prev.length) ∧
    (∀ (t : Task) (prev : List Task),
      (handleEvent (.taskFailed t) prev).length = prev.length) ∧
    (∀ (tid : String) (entry : LogEntry) (prev : List Task),
      (handleEvent (.log tid entry) prev).length = prev.length) ∧
    (∀ (tid : String) (p : Int) (prev : List Task),
      (handleEvent (.progress tid p) prev).length = prev.length) := by
have hslice : ∀ l : List Task, (sliceLast10 l).length ≤ 10 := by
  intro l
  simp only [sliceLast10, List.length_drop]
  omega
have hup : ∀ (t : Task) (prev : List Task),
    prev.length ≤ 10 → (upsertTask t prev).length ≤ 10 := by
  intro t prev h
  by_cases hc : prev.any (fun x => x.id = t.id)
  · simpa [upsertTask, hc] using h
  · simpa [upsertTask, hc] using hslice (prev ++ [t])
refine ⟨?_, ?_, ?_, ?_, ?_, ?_⟩
· intro ev prev h
  cases ev <;> simp only [handleEvent] <;>
    first
      | exact hup _ _ h
      | simpa using h
· intro t prev hnone
  have hc : prev.any (fun x => x.id = t.id) = false := by
    simp only [List.any_eq_false, decide_eq_true_eq]
    exact hnone
  constructor
  · simp [handleEvent, upsertTask, hc]
  · simp only [handleEvent, upsertTask, hc, Bool.false_eq_true, if_false]
    exact hslice (prev ++ [t])
· intro t prev
  simp [handleEvent]
· intro t prev
  simp [handleEvent]
· intro tid entry prev
  simp [handleEvent]
· intro tid p prev
  simp [handleEvent]

/-- C9 witness: the appending branch and the invariant at concrete inputs. -/
theorem logpanel_task_cap_c9_witness :
    (([] : List Task).length ≤ 10 →
      (handleEvent (.log "a" ⟨"", "", ""⟩) ([] : List Task)).length ≤ 10) ∧
    ((∀ x ∈ ([] : List Task), x.id ≠ "t1") →
      handleEvent (.taskCreated ⟨"t1", "n", "running", 0, []⟩) ([] : List Task) =
          sliceLast10 ([] ++ [⟨"t1", "n", "running", 0, []⟩]) ∧
        (handleEvent (.taskCreated ⟨"t1", "n", "running", 0, []⟩) ([] : List Task)).length ≤ 10) :=
⟨fun h => logpanel_task_cap_c9.1 (.log "a" ⟨"", "", ""⟩) [] h,
 fun h => logpanel_task_cap_c9.2.1 ⟨"t1", "n", "running", 0, []⟩ [] h⟩

/-! ## C10: spell-check issue-index repositioning -/

theorem findIdx?_bounds {α : Type} (p : α → Bool) :
    ∀ (l : List α) (i k : Nat), List.findIdx? p l i = some k → i ≤ k ∧ k < i + l.length := by
intro l
induction l with
| nil =>
  intro i k h
  simp [List.findIdx?_nil] at h
| cons x xs ih =>
  intro i k h
  rw [List.findIdx?_cons] at h
  by_cases hp : p x = true
  · rw [if_pos hp] at h
    injection h with h
    simp only [List.length_cons]
    omega
  · rw [if_neg hp] at h
    have := ih (i + 1) k h
    simp only [List.length_cons]
    omega

theorem jsFindIndex_some {p : UIIssue → Bool} {l : List UIIssue} {k : Nat}
    (h : l.findIdx? p = some k) : jsFindIndex p l = (k : Int) := by
simp [jsFindIndex, h]

theorem jsFindIndex_none {p : UIIssue → Bool} {l : List UIIssue}
    (h : l.findIdx? p = none) : jsFindIndex p l = -1 := by
simp [jsFindIndex, h]

/-- C10: after an edit-triggered spell-check refresh, the new issue index is
the first issue on the edited subtitle, else the first issue on a later
subtitle, else the previous index clamped into the new list, clamped below
at zero — and for every non-empty issue list it lies within
`[0, length-1]`. -/
theorem spellcheck_reposition_c10 (issues : List UIIssue) (edited : Nat) (cur : Int)
    (h : issues ≠ []) :
    (0 ≤ repositionIssueIndex issues edited cur ∧
      repositionIssueIndex issues edited cur ≤ (issues.length : Int) - 1) ∧
    (∀ k, issues.findIdx? (fun i => i.index == edited) = some k →
      repositionIssueIndex issues edited cur = k) ∧
    (issues.findIdx? (fun i => i.index == edited) = none →
      ∀ k, issues.findIdx? (fun i => edited < i.index) = some k →
        repositionIssueIndex issues edited cur = k) ∧
    (issues.findIdx? (fun i => i.index == edited) = none →
      issues.findIdx? (fun i => edited < i.index) = none →
      repositionIssueIndex issues edited cur =
        max 0 (min cur ((issues.length : Int) - 1))) := by
have hlen : 0 < issues.length := List.length_pos.mpr h
cases h1 : issues.findIdx? (fun i => i.index == edited) with
| some k =>
  have hk := findIdx?_bounds _ issues 0 k h1
  have hval : repositionIssueIndex issues edited cur = k := by
    simp only [repositionIssueIndex, jsFindIndex_some h1]
    have c1 : (((k : Int) = -1)) = False := by simp
    simp [c1]
  refine ⟨⟨by omega, by omega⟩, ?_, ?_, ?_⟩
  · intro k' hk'
    injection hk' with hk'
    rw [hval, hk']
  · intro hnone
    exact absurd hnone (by simp)
  · intro hnone
    exact absurd hnone (by simp)
| none =>
  cases h2 : issues.findIdx? (fun i => edited < i.index) with
  | some k =>
    have hk := findIdx?_bounds _ issues 0 k h2
    have hval : repositionIssueIndex issues edited cur = k := by
      simp only [repositionIssueIndex, jsFindIndex_none h1, jsFindIndex_some h2]
      have c1 : (((k : Int) = -1)) = False := by simp
      simp [c1]
    refine ⟨⟨by omega, by omega⟩, ?_, ?_, ?_⟩
    · intro k' hk'
      exact absurd hk' (by simp)
    · intro _ k' hk'
      injection hk' with hk'
      rw [hval, hk']
    · intro _ hnone
      exact absurd hnone (by simp)
  | none =>
    have hval : repositionIssueIndex issues edited cur =
        max 0 (min cur ((issues.length : Int) - 1)) := by
      simp [repositionIssueIndex, jsFindIndex_none h1, jsFindIndex_none h2, hlen]
    refine ⟨⟨by omega, ?_⟩, ?_, ?_, fun _ _ => hval⟩
    · rw [hval]
      have hm : min cur ((issues.length : Int) - 1) ≤ (issues.length : Int) - 1 :=
        min_le_right _ _
      omega
    · intro k' hk'
      exact absurd hk' (by simp)
    · intro _ k' hk'
      exact absurd hk' (by simp)

/-- C10 witness: a concrete non-empty issue list. -/
theorem spellcheck_reposition_c10_witness :
    ([⟨3, 0, "a"⟩, ⟨5, 2, "b"⟩] : List UIIssue) ≠ [] ∧
      (0 ≤ repositionIssueIndex [⟨3, 0, "a"⟩, ⟨5, 2, "b"⟩] 4 7 ∧
        repositionIssueIndex [⟨3, 0, "a"⟩, ⟨5, 2, "b"⟩] 4 7 ≤
          (([⟨3, 0, "a"⟩, ⟨5, 2, "b"⟩] : List UIIssue).length : Int) - 1) :=
⟨by decide, (spellcheck_reposition_c10 [⟨3, 0, "a"⟩, ⟨5, 2, "b"⟩] 4 7 (by decide)).1⟩

/-! ## C8: timecode parsing -/

theorem parseTimecodeChars_inv {cs : List Char} {t : Nat}
    (h : parseTimecodeChars cs = some t) :
    ∃ h1 h2 m1 m2 s1 s2 x1 x2 x3 : Char,
      cs = [h1, h2, ':', m1, m2, ':', s1, s2, ',', x1, x2, x3] ∧
      (h1.isDigit ∧ h2.isDigit ∧ m1.isDigit ∧ m2.isDigit ∧ s1.isDigit ∧ s2.isDigit ∧
        x1.isDigit ∧ x2.isDigit ∧ x3.isDigit) ∧
      c2d m1 * 10 + c2d m2 < 60 ∧ c2d s1 * 10 + c2d s2 < 60 ∧
      t = (c2d h1 * 10 + c2d h2) * 3600000 + (c2d m1 * 10 + c2d m2) * 60000 +
        (c2d s1 * 10 + c2d s2) * 1000 + (c2d x1 * 100 + c2d x2 * 10 + c2d x3) := by
unfold parseTimecodeChars at h
split at h
next a b c d e f g i j =>
  split_ifs at h with hd
  · dsimp only at h
    split_ifs at h with hr
    injection h with h
    exact ⟨a, b, c, d, e, f, g, i, j, rfl, hd, hr.1, hr.2, h.symm⟩
next =>
  exact absurd h (by simp)

/-- C8: `Timecode.parse` returns a timecode exactly when the string matches
`HH:MM:SS,mmm` with correct digit counts and minute/second fields below 60
(failing with `FormatError` otherwise), and every parsed timecode is a
non-negative integral number of milliseconds decomposing into bounded
hour/minute/second/millisecond fields. -/
theorem timecode_parse_c8 :
    (∀ s : String, (∃ t, Timecode.parse s = .ok t) ↔ WellFormedTimecode s) ∧
    (∀ (s : String) (t : Nat), Timecode.parse s = .ok t →
      ∃ hh mm ss ms : Nat, mm < 60 ∧ ss < 60 ∧ ms < 1000 ∧
        t = hh * 3600000 + mm * 60000 + ss * 1000 + ms) := by
constructor
· intro s
  constructor
  · rintro ⟨t, ht⟩
    unfold Timecode.parse at ht
    cases hp : parseTimecodeChars s.data with
    | some u =>
      obtain ⟨a, b, c, d, e, f, g, i, j, hs, hd, hm, hsec, -⟩ := parseTimecodeChars_inv hp
      exact ⟨a, b, c, d, e, f, g, i, j, hs, hd, hm, hsec⟩
    | none =>
      rw [hp] at ht
      exact absurd ht (by simp)
  · rintro ⟨a, b, c, d, e, f, g, i, j, hs, hd, hm, hsec⟩
    refine ⟨(c2d a * 10 + c2d b) * 3600000 + (c2d c * 10 + c2d d) * 60000 +
      (c2d e * 10 + c2d f) * 1000 + (c2d g * 100 + c2d i * 10 + c2d j), ?_⟩
    unfold Timecode.parse
    rw [hs]
    simp only [parseTimecodeChars]
    rw [if_pos hd]
    rw [if_pos ⟨hm, hsec⟩]
· intro s t ht
  unfold Timecode.parse at ht
  cases hp : parseTimecodeChars s.data with
  | some u =>
    rw [hp] at ht
    injection ht with ht
    subst ht
    obtain ⟨a, b, c, d, e, f, g, i, j, hs, hd, hm, hsec, hval⟩ := parseTimecodeChars_inv hp
    refine ⟨c2d a * 10 + c2d b, c2d c * 10 + c2d d, c2d e * 10 + c2d f,
      c2d g * 100 + c2d i * 10 + c2d j, hm, hsec, ?_, ?_⟩
    · have hg := c2d_lt_ten hd.2.2.2.2.2.2.1
      have hi := c2d_lt_ten hd.2.2.2.2.2.2.2.1
      have hj := c2d_lt_ten hd.2.2.2.2.2.2.2.2
      omega
    · omega
  | none =>
    rw [hp] at ht
    exact absurd ht (by simp)

/-- C8 witness: the concrete timecode `00:00:05,000`. -/
theorem timecode_parse_c8_witness :
    Timecode.parse "00:00:05,000" = .ok 5000 ∧
      ∃ hh mm ss ms : Nat, mm < 60 ∧ ss < 60 ∧ ms < 1000 ∧
        5000 = hh * 3600000 + mm * 60000 + ss * 1000 + ms :=
⟨rfl, timecode_parse_c8.2 "00:00:05,000" 5000 rfl⟩

/-! ## C6: replacement pass -/

/-- C6: one scan applies every configured replacement pair, in the order
given, as literal substring substitutions to every entry, mutating the
document in place, and reports the total number of substitutions across the
whole document; for replacements `{"|": "I", "/": "I"}` and entry text
`"He||o/"` a full scan stores `"HeIIoI"` and reports 3 replacements. -/
theorem scan_replacements_c6 :
    (∀ (reps : List (String × String)) (doc : SubtitleDocument),
      (scanReplaceDoc reps doc).1 =
          doc.map (fun e => { e with text := (applyReplacements reps e.text).1 }) ∧
        (scanReplaceDoc reps doc).2 =
          (doc.map (fun e => (applyReplacements reps e.text).2)).sum) ∧
    applyReplacements [("|", "I"), ("/", "I")] "He||o/" = ("HeIIoI", 3) ∧
    (scan { replacementsEnabled := true, replacements := [("|", "I"), ("/", "I")],
            ignoreEnabled := false, ignoreList := [] }
        ⟨fun _ => true, fun _ => []⟩ [⟨1, 0, 1000, "He||o/"⟩]).doc =
      [⟨1, 0, 1000, "HeIIoI"⟩] ∧
    (scan { replacementsEnabled := true, replacements := [("|", "I"), ("/", "I")],
            ignoreEnabled := false, ignoreList := [] }
        ⟨fun _ => true, fun _ => []⟩ [⟨1, 0, 1000, "He||o/"⟩]).replacementsMade = 3 := by
refine ⟨?_, by decide, by decide, by decide⟩
intro reps doc
induction doc with
| nil => simp [scanReplaceDoc]
| cons e es ih =>
  constructor
  · simp [scanReplaceDoc, ih.1]
  · simp [scanReplaceDoc, ih.2]

/-! ## C7: SDH removal counts -/

/-- C7: bracket-format SDH removal deletes each bracketed span; an entry
whose text becomes empty is deleted and counted in `entriesRemoved`, an
entry whose text changes but stays non-empty is counted in
`entriesModified`, and `totalRemovals` sums the deleted spans; in
particular `"[door creaks] Hello"` becomes `"Hello"` (one modification, one
removal) and an entry that is only `"[sigh]"` is deleted. -/
theorem sdh_removal_c7 :
    (∀ (dd : Bool) (doc : SubtitleDocument),
      (removeSDHDoc dd doc).2.entriesRemoved =
          doc.countP (fun e => (sdhProcessText dd e.text).1 == "") ∧
        (removeSDHDoc dd doc).2.entriesModified =
          doc.countP (fun e =>
            !((sdhProcessText dd e.text).1 == "") &&
              !((sdhProcessText dd e.text).1 == e.text)) ∧
        (removeSDHDoc dd doc).2.totalRemovals =
          (doc.map (fun e => (sdhProcessText dd e.text).2)).sum ∧
        (removeSDHDoc dd doc).1 =
          (doc.map (fun e => { e with text := (sdhProcessText dd e.text).1 })).filter
            (fun e => !(e.text == ""))) ∧
    sdhProcessText false "[door creaks] Hello" = ("Hello", 1) ∧
    sdhProcessText false "[sigh]" = ("", 1) ∧
    removeSDHDoc false [⟨1, 0, 1000, "[door creaks] Hello"⟩, ⟨2, 2000, 3000, "[sigh]"⟩] =
      ([⟨1, 0, 1000, "Hello"⟩], ⟨1, 1, 2⟩) := by
refine ⟨?_, by decide, by decide, by decide⟩
intro dd doc
induction doc with
| nil => simp [removeSDHDoc]
| cons e es ih =>
  obtain ⟨ih1, ih2, ih3, ih4⟩ := ih
  by_cases h1 : (sdhProcessText dd e.text).1 = ""
  · refine ⟨?_, ?_, ?_, ?_⟩ <;>
      simp [removeSDHDoc, h1, ih1, ih2, ih3, ih4, Nat.add_comm]
  · by_cases h2 : (sdhProcessText dd e.text).1 = e.text
    · have he : ({ e with text := (sdhProcessText dd e.text).1 } : SubtitleEntry) = e := by
        rw [h2]
      have h1' : ¬(e.text = "") := h2 ▸ h1
      refine ⟨?_, ?_, ?_, ?_⟩ <;>
        simp [removeSDHDoc, h1, h2, he, h1', ih1, ih2, ih3, ih4, Nat.add_comm]
    · refine ⟨?_, ?_, ?_, ?_⟩ <;>
        simp [removeSDHDoc, h1, h2, ih1, ih2, ih3, ih4, Nat.add_comm]

/-! ## C3, C4: stamp manager -/

theorem containsMarker_of_prefix {pat l : List Char} (h : pat <+: l) :
    containsMarkerChars pat l = true := by
simp only [containsMarkerChars, List.any_eq_true]
exact ⟨l, (List.mem_tails _ _).mpr (List.suffix_refl l), List.isPrefixOf_iff_prefix.mpr h⟩

theorem isStampEntry_tagged (i a b : Nat) (t : String) :
    isStampEntry ⟨i, a, b, stampMarker ++ "\n" ++ t⟩ = true := by
unfold isStampEntry
apply containsMarker_of_prefix
rw [String.data_append, String.data_append]
exact (List.prefix_append _ _).trans (List.prefix_append _ _)

/-- C3: `addStamp` fails without mutating the document whenever the
collision check reports any collision (with `CollisionError` carrying the
colliding indices) or the reserved stamp marker is already present, and it
preserves the at-most-one-stamp invariant. -/
theorem addStamp_atomic_c3 (doc : SubtitleDocument) (a b : Nat) (t : String) :
    ((checkStampCollision doc a b).stampAlreadyPresent = true →
      addStamp doc a b t = .error .stampPresentError ∧
        docAfterAddStamp doc a b t = doc) ∧
    ((checkStampCollision doc a b).stampAlreadyPresent = false →
      (checkStampCollision doc a b).collides = true →
      addStamp doc a b t =
          .error (.collisionError (checkStampCollision doc a b).collidingIndices) ∧
        docAfterAddStamp doc a b t = doc) ∧
    (stampCount doc ≤ 1 → stampCount (docAfterAddStamp doc a b t) ≤ 1) := by
refine ⟨?_, ?_, ?_⟩
· intro hp
  constructor
  · simp [addStamp, checkStampCollision] at hp ⊢
    simp [hp]
  · simp [addStamp, checkStampCollision, docAfterAddStamp] at hp ⊢
    simp [hp]
· intro hp hc
  simp only [checkStampCollision] at hp hc
  constructor
  · simp [addStamp, checkStampCollision, docAfterAddStamp, hp, hc]
  · simp [addStamp, checkStampCollision, docAfterAddStamp, hp, hc]
· intro hcount
  by_cases hp : doc.any isStampEntry = true
  · simpa [docAfterAddStamp, addStamp, checkStampCollision, hp] using hcount
  · simp only [Bool.not_eq_true] at hp
    have hzero : stampCount doc = 0 := by
      refine List.countP_eq_zero.mpr ?_
      intro e he
      have := List.any_eq_false.mp hp e he
      simpa using this
    by_cases hc : doc.any (entryCollides a b) = true
    · simpa [docAfterAddStamp, addStamp, checkStampCollision, hp, hc] using hcount
    · simp only [Bool.not_eq_true] at hc
      have hres : docAfterAddStamp doc a b t =
          doc ++ [⟨doc.length + 1, a, b, stampMarker ++ "\n" ++ t⟩] := by
        simp [docAfterAddStamp, addStamp, checkStampCollision, hp, hc]
      rw [hres]
      simp only [stampCount, List.countP_append, List.countP_cons,
        isStampEntry_tagged, List.countP_nil, if_true]
      simp only [stampCount] at hzero
      omega

/-- C3 witness: a document with a stamp already present rejects `addStamp`
unchanged, and the at-most-one-stamp invariant holds on the empty
document. -/
theorem addStamp_atomic_c3_witness :
    ((checkStampCollision [⟨1, 0, 1000, "NinjaMediaManager"⟩] 5000 8000).stampAlreadyPresent =
        true →
      addStamp [⟨1, 0, 1000, "NinjaMediaManager"⟩] 5000 8000 "x" =
          .error .stampPresentError ∧
        docAfterAddStamp [⟨1, 0, 1000, "NinjaMediaManager"⟩] 5000 8000 "x" =
          [⟨1, 0, 1000, "NinjaMediaManager"⟩]) ∧
    (stampCount ([] : SubtitleDocument) ≤ 1 →
      stampCount (docAfterAddStamp [] 0 1000 "x") ≤ 1) :=
⟨(addStamp_atomic_c3 [⟨1, 0, 1000, "NinjaMediaManager"⟩] 5000 8000 "x").1,
 (addStamp_atomic_c3 [] 0 1000 "x").2.2⟩

/-- C4: after a successful `addStamp`, the first `removeStamp` succeeds and
restores exactly the document from before `addStamp`, and a second
`removeStamp` fails with `NotFoundError`. -/
theorem stamp_add_remove_c4 (doc : SubtitleDocument) (a b : Nat) (t : String)
    (doc' : SubtitleDocument) (h : addStamp doc a b t = .ok doc') :
    removeStamp doc' = .ok doc ∧ removeStamp doc = .error .notFoundError := by
simp only [addStamp, checkStampCollision] at h
split_ifs at h with h1 h2
· have hany : doc.any isStampEntry = false := by
    simpa using h1
  injection h with h
  subst h
  have hnot : ∀ e ∈ doc, ¬isStampEntry e = true := by
    intro e he
    simpa using List.any_eq_false.mp hany e he
  constructor
  · have hyes : (doc ++ [(⟨doc.length + 1, a, b, stampMarker ++ "\n" ++ t⟩ :
        SubtitleEntry)]).any isStampEntry = true := by
      simp [List.any_append, isStampEntry_tagged]
    rw [removeStamp, if_pos hyes, List.eraseP_append_right _ hnot,
      List.eraseP_cons_of_pos (isStampEntry_tagged _ _ _ _)]
    simp
  · rw [removeStamp, if_neg]
    simp [hany]

/-- C4 witness: add-then-remove on the empty document. -/
theorem stamp_add_remove_c4_witness :
    removeStamp [⟨1, 0, 1000, stampMarker ++ "\n" ++ "x"⟩] = .ok [] ∧
      removeStamp [] = .error .notFoundError :=
stamp_add_remove_c4 [] 0 1000 "x" [⟨1, 0, 1000, stampMarker ++ "\n" ++ "x"⟩] rfl

/-! ## C5: scan ordering and determinism -/

theorem mem_invalidCharIssues_entryIndex (cfg : ScanConfig) (idx : Nat) :
    ∀ (cs : List Char) (pos : Nat) (i : Issue),
      i ∈ invalidCharIssues cfg idx cs pos → i.entryIndex = idx := by
intro cs
induction cs with
| nil =>
  intro pos i hi
  simp [invalidCharIssues] at hi
| cons c cs ih =>
  intro pos i hi
  rw [invalidCharIssues, List.mem_append] at hi
  rcases hi with hi | hi
  · split_ifs at hi with hc
    · simp at hi
    · simp at hi
      rw [hi]
  · exact ih (pos + 1) i hi

theorem mem_spellingIssues_entryIndex (cfg : ScanConfig) (dict : Dictionary) (idx : Nat)
    (cs : List Char) (i : Issue) (hi : i ∈ spellingIssues cfg dict idx cs) :
    i.entryIndex = idx := by
rw [spellingIssues, List.mem_filterMap] at hi
obtain ⟨t, -, ht⟩ := hi
dsimp only at ht
split_ifs at ht with hc
injection ht with ht
rw [← ht]

theorem mem_entryIssues_entryIndex (cfg : ScanConfig) (dict : Dictionary)
    (e : SubtitleEntry) (i : Issue) (hi : i ∈ entryIssues cfg dict e) :
    i.entryIndex = e.index := by
rw [entryIssues] at hi
rw [(List.perm_insertionSort posLE _).mem_iff, List.mem_append] at hi
rcases hi with hi | hi
· exact mem_invalidCharIssues_entryIndex cfg e.index _ 0 i hi
· exact mem_spellingIssues_entryIndex cfg dict e.index _ i hi

theorem map_index_scanReplaceDoc (reps : List (String × String)) (doc : SubtitleDocument) :
    (scanReplaceDoc reps doc).1.map (fun e => e.index) = doc.map (fun e => e.index) := by
induction doc with
| nil => simp [scanReplaceDoc]
| cons e es ih => simp [scanReplaceDoc, ih]

theorem pairwise_lt_insertionSort (es : SubtitleDocument)
    (h : (es.map (fun e => e.index)).Nodup) :
    (List.insertionSort idxLE es).Pairwise (fun a b => a.index < b.index) := by
have hs : List.Sorted idxLE (List.insertionSort idxLE es) :=
  List.sorted_insertionSort idxLE es
have hperm : List.Perm (List.insertionSort idxLE es) es := List.perm_insertionSort idxLE es
have hnd : ((List.insertionSort idxLE es).map (fun e => e.index)).Nodup :=
  ((hperm.map _).nodup_iff).mpr h
have hne : (List.insertionSort idxLE es).Pairwise (fun a b => a.index ≠ b.index) :=
  List.pairwise_map.mp hnd
exact (hs.and hne).imp (fun hab => Nat.lt_of_le_of_ne hab.1 hab.2)

theorem pairwise_flatMap_issueLex (f : SubtitleEntry → List Issue)
    (hidx : ∀ (e : SubtitleEntry) (i : Issue), i ∈ f e → i.entryIndex = e.index)
    (hpos : ∀ e, (f e).Pairwise posLE) :
    ∀ es : List SubtitleEntry, es.Pairwise (fun a b => a.index < b.index) →
      (es.flatMap f).Pairwise issueLex := by
intro es
induction es with
| nil =>
  intro _
  simp
| cons e es ih =>
  intro hlt
  rw [List.pairwise_cons] at hlt
  rw [List.flatMap_cons, List.pairwise_append]
  refine ⟨?_, ih hlt.2, ?_⟩
  · exact List.Pairwise.imp_of_mem
      (fun ha hb hr => Or.inr ⟨(hidx e _ ha).trans (hidx e _ hb).symm, hr⟩) (hpos e)
  · intro a ha b hb
    obtain ⟨e', he', hb'⟩ := List.mem_flatMap.mp hb
    left
    rw [hidx e a ha, hidx e' b hb']
    exact hlt.1 e' he'

/-- C5: the issue list returned by `scan` is ordered by
`(entryIndex ascending, position ascending)`, and scanning the same
unmodified document twice with the same configuration yields identical
issue lists (the scan is deterministic). -/
theorem scan_sorted_c5 (cfg : ScanConfig) (dict : Dictionary) (doc : SubtitleDocument)
    (h : (doc.map (fun e => e.index)).Nodup) :
    (scan cfg dict doc).issues.Pairwise issueLex ∧
    (∀ r1 r2 : ScanResult, r1 = scan cfg dict doc → r2 = scan cfg dict doc →
      r1.issues = r2.issues) := by
constructor
· have hidxmap :
      ((if cfg.replacementsEnabled then scanReplaceDoc cfg.replacements doc
        else (doc, 0)).1.map (fun e => e.index)) = doc.map (fun e => e.index) := by
    split_ifs with hr
    · exact map_index_scanReplaceDoc cfg.replacements doc
    · rfl
  show ((List.insertionSort idxLE
      (if cfg.replacementsEnabled then scanReplaceDoc cfg.replacements doc
        else (doc, 0)).1).flatMap (entryIssues cfg dict)).Pairwise issueLex
  apply pairwise_flatMap_issueLex
  · intro e i hi
    exact mem_entryIssues_entryIndex cfg dict e i hi
  · intro e
    exact List.sorted_insertionSort posLE _
  · exact pairwise_lt_insertionSort _ (hidxmap ▸ h)
· intro r1 r2 e1 e2
  rw [e1, e2]

/-- C5 witness: a concrete two-entry document with distinct indices. -/
theorem scan_sorted_c5_witness :
    (([⟨1, 0, 1000, "Helo wrold"⟩, ⟨2, 2000, 3000, "ok"⟩] :
        SubtitleDocument).map (fun e => e.index)).Nodup ∧
      (scan plainScanConfig emptyDict
          [⟨1, 0, 1000, "Helo wrold"⟩, ⟨2, 2000, 3000, "ok"⟩]).issues.Pairwise issueLex :=
⟨by decide,
 (scan_sorted_c5 plainScanConfig emptyDict
    [⟨1, 0, 1000, "Helo wrold"⟩, ⟨2, 2000, 3000, "ok"⟩] (by decide)).1⟩

/-! ## C2: round-trip machinery — digits and timecodes -/

theorem d2c_ne_nl (d : Nat) : d2c d ≠ '\n' := by
intro heq
rw [d2c] at heq
have h10 : (Char.ofNat (48 + d)).toNat = 10 := by rw [heq]; rfl
by_cases hv : (48 + d).isValidChar
· rw [show (Char.ofNat (48 + d)).toNat = 48 + d from by
    simp [Char.ofNat, hv, Char.toNat, Char.ofNatAux, UInt32.toNat,
      BitVec.toNat_ofNatLt]] at h10
  omega
· rw [show (Char.ofNat (48 + d)).toNat = 0 from by
    simp [Char.ofNat, hv, Char.toNat, UInt32.toNat, BitVec.toNat_ofNatLt]] at h10
  omega

theorem natCharsAux_spec :
    ∀ fuel n : Nat, n < fuel →
      natCharsAux fuel n ≠ [] ∧ (natCharsAux fuel n).all Char.isDigit = true ∧
        charsToNat (natCharsAux fuel n) = n := by
intro fuel
induction fuel with
| zero =>
  intro n h
  omega
| succ fuel ih =>
  intro n h
  by_cases h10 : n < 10
  · simp only [natCharsAux, if_pos h10]
    refine ⟨by simp, ?_, ?_⟩
    · simp [isDigit_d2c h10]
    · simp [charsToNat, c2d_d2c h10]
  · simp only [natCharsAux, if_neg h10]
    have hdiv : n / 10 < fuel := by omega
    obtain ⟨h1, h2, h3⟩ := ih (n / 10) hdiv
    have hm : n % 10 < 10 := Nat.mod_lt _ (by omega)
    refine ⟨by simp, ?_, ?_⟩
    · simp [List.all_append, h2, isDigit_d2c hm]
    · have hstep : charsToNat (natCharsAux fuel (n / 10) ++ [d2c (n % 10)]) =
          charsToNat (natCharsAux fuel (n / 10)) * 10 + c2d (d2c (n % 10)) := by
        simp [charsToNat, List.foldl_append]
      rw [hstep, h3, c2d_d2c hm]
      omega

theorem parseIndexLine_natChars (n : Nat) : parseIndexLine (natChars n) = some n := by
obtain ⟨h1, h2, h3⟩ := natCharsAux_spec (n + 1) n (by omega)
rw [parseIndexLine, if_pos ⟨h1, h2⟩]
exact congrArg some h3

theorem isBlankLine_natChars (n : Nat) : isBlankLine (natChars n) = false := by
obtain ⟨h1, h2, -⟩ := natCharsAux_spec (n + 1) n (by omega)
show isBlankLine (natCharsAux (n + 1) n) = false
cases hl : natCharsAux (n + 1) n with
| nil => exact absurd hl h1
| cons c cs =>
  have hc : c.isDigit = true :=
    List.all_eq_true.mp h2 c (by rw [hl]; exact List.mem_cons_self c cs)
  simp [isBlankLine, not_whitespace_of_isDigit hc]

theorem no_nl_natChars (n : Nat) : '\n' ∉ natChars n := by
obtain ⟨-, h2, -⟩ := natCharsAux_spec (n + 1) n (by omega)
intro hmem
have := List.all_eq_true.mp h2 '\n' hmem
exact absurd this (by decide)

theorem parseTimecodeChars_format {t : Nat} (h : t < 360000000) :
    parseTimecodeChars (timecodeChars t) = some t := by
have hm60 : t / 60000 % 60 < 60 := Nat.mod_lt _ (by omega)
have hs60 : t / 1000 % 60 < 60 := Nat.mod_lt _ (by omega)
have eh : c2d (d2c (t / 3600000 / 10)) * 10 + c2d (d2c (t / 3600000 % 10)) =
    t / 3600000 := by
  rw [c2d_d2c (by omega), c2d_d2c (by omega)]
  omega
have em : c2d (d2c (t / 60000 % 60 / 10)) * 10 + c2d (d2c (t / 60000 % 60 % 10)) =
    t / 60000 % 60 := by
  rw [c2d_d2c (by omega), c2d_d2c (by omega)]
  omega
have es : c2d (d2c (t / 1000 % 60 / 10)) * 10 + c2d (d2c (t / 1000 % 60 % 10)) =
    t / 1000 % 60 := by
  rw [c2d_d2c (by omega), c2d_d2c (by omega)]
  omega
have ems : c2d (d2c (t % 1000 / 100)) * 100 + c2d (d2c (t % 1000 / 10 % 10)) * 10 +
    c2d (d2c (t % 1000 % 10)) = t % 1000 := by
  rw [c2d_d2c (by omega), c2d_d2c (by omega), c2d_d2c (by omega)]
  omega
simp only [timecodeChars, pad2, pad3, List.cons_append, List.nil_append]
simp only [parseTimecodeChars]
rw [if_pos ⟨isDigit_d2c (by omega), isDigit_d2c (by omega), isDigit_d2c (by omega),
  isDigit_d2c (by omega), isDigit_d2c (by omega), isDigit_d2c (by omega),
  isDigit_d2c (by omega), isDigit_d2c (by omega), isDigit_d2c (by omega)⟩]
rw [em, es]
rw [if_pos ⟨hm60, hs60⟩, eh, ems]
exact congrArg some (by omega)

theorem length_timecodeChars (t : Nat) : (timecodeChars t).length = 12 := by
simp [timecodeChars, pad2, pad3]

theorem parseTimeLine_format {a b : Nat} (ha : a < 360000000) (hb : b < 360000000) :
    parseTimeLine (timeLineChars a b) = some (a, b) := by
have h1 : (timeLineChars a b).take 12 = timecodeChars a := by
  rw [timeLineChars, List.append_assoc]
  exact List.take_left' (length_timecodeChars a)
have h2 : (timeLineChars a b).drop 17 = timecodeChars b := by
  rw [timeLineChars]
  exact List.drop_left' (by simp [length_timecodeChars])
have h3 : ((timeLineChars a b).drop 12).take 5 = [' ', '-', '-', '>', ' '] := by
  rw [timeLineChars, List.append_assoc, List.drop_left' (length_timecodeChars a)]
  exact List.take_left' rfl
have h4 : (timeLineChars a b).length = 29 := by
  simp [timeLineChars, length_timecodeChars]
rw [parseTimeLine, h1, h2, parseTimecodeChars_format ha, parseTimecodeChars_format hb]
show (if List.take 5 (List.drop 12 (timeLineChars a b)) = [' ', '-', '-', '>', ' '] ∧
    (timeLineChars a b).length = 29 then some (a, b) else none) = some (a, b)
rw [if_pos ⟨h3, h4⟩]

theorem no_nl_timecodeChars (t : Nat) : '\n' ∉ timecodeChars t := by
intro hmem
simp only [timecodeChars, pad2, pad3, List.cons_append, List.nil_append,
  List.mem_cons, List.not_mem_nil, or_false] at hmem
rcases hmem with h | h | h | h | h | h | h | h | h | h | h | h <;>
  first
    | exact absurd h.symm (d2c_ne_nl _)
    | exact absurd h (by decide)

theorem no_nl_timeLineChars (a b : Nat) : '\n' ∉ timeLineChars a b := by
intro hmem
rw [timeLineChars] at hmem
rcases List.mem_append.mp hmem with h | h
· rcases List.mem_append.mp h with h | h
  · exact no_nl_timecodeChars a h
  · simp at h
· exact no_nl_timecodeChars b h

/-! ## C2: round-trip machinery — splitting and joining lines -/

theorem splitNlChars_ne_nil (cs : List Char) : splitNlChars cs ≠ [] := by
induction cs with
| nil => simp [splitNlChars]
| cons c cs ih =>
  rw [splitNlChars]
  split_ifs
  · simp
  · cases h : splitNlChars cs with
    | nil => simp
    | cons l ls => simp

theorem no_nl_mem_splitNlChars :
    ∀ cs : List Char, ∀ l ∈ splitNlChars cs, '\n' ∉ l := by
intro cs
induction cs with
| nil =>
  intro l hl
  simp [splitNlChars] at hl
  simp [hl]
| cons c cs ih =>
  intro l hl
  rw [splitNlChars] at hl
  split_ifs at hl with hc
  · rcases List.mem_cons.mp hl with rfl | hl
    · simp
    · exact ih l hl
  · cases h : splitNlChars cs with
    | nil =>
      rw [h] at hl
      simp only [List.mem_singleton] at hl
      subst hl
      simp only [List.mem_singleton]
      exact fun e => hc e.symm
    | cons r rs =>
      rw [h] at hl
      rcases List.mem_cons.mp hl with rfl | hl
      · intro hmem
        rcases List.mem_cons.mp hmem with he | hmem
        · exact hc he.symm
        · exact ih r (by rw [h]; exact List.mem_cons_self r rs) hmem
      · exact ih l (by rw [h]; exact List.mem_cons_of_mem r hl)

theorem joinNl_splitNl (cs : List Char) : joinNlChars (splitNlChars cs) = cs := by
induction cs with
| nil => rfl
| cons c cs ih =>
  rw [splitNlChars]
  split_ifs with hc
  · subst hc
    cases h : splitNlChars cs with
    | nil => exact absurd h (splitNlChars_ne_nil cs)
    | cons r rs =>
      rw [h] at ih
      show [] ++ '\n' :: joinNlChars (r :: rs) = '\n' :: cs
      simpa using ih
  · cases h : splitNlChars cs with
    | nil => exact absurd h (splitNlChars_ne_nil cs)
    | cons r rs =>
      rw [h] at ih
      cases rs with
      | nil =>
        simpa [joinNlChars] using ih
      | cons r2 rs2 =>
        have ih' : r ++ '\n' :: joinNlChars (r2 :: rs2) = cs := ih
        show (c :: r) ++ '\n' :: joinNlChars (r2 :: rs2) = c :: cs
        rw [List.cons_append, ih']

theorem splitNl_no_nl {l : List Char} (h : '\n' ∉ l) : splitNlChars l = [l] := by
induction l with
| nil => rfl
| cons c cs ih =>
  have hc : ¬(c = '\n') := fun e => h (e ▸ List.mem_cons_self c cs)
  have hcs : '\n' ∉ cs := fun m => h (List.mem_cons_of_mem c m)
  rw [splitNlChars, if_neg hc, ih hcs]

theorem splitNl_append {l : List Char} (h : '\n' ∉ l) (rest : List Char) :
    splitNlChars (l ++ '\n' :: rest) = l :: splitNlChars rest := by
induction l with
| nil => simp [splitNlChars]
| cons c cs ih =>
  have hc : ¬(c = '\n') := fun e => h (e ▸ List.mem_cons_self c cs)
  have hcs : '\n' ∉ cs := fun m => h (List.mem_cons_of_mem c m)
  rw [List.cons_append, splitNlChars, if_neg hc, ih hcs]

theorem splitNl_joinNl :
    ∀ ls : List (List Char), ls ≠ [] → (∀ l ∈ ls, '\n' ∉ l) →
      splitNlChars (joinNlChars ls) = ls := by
intro ls
induction ls with
| nil =>
  intro h
  exact absurd rfl h
| cons l ls ih =>
  intro _ hno
  cases ls with
  | nil =>
    simpa [joinNlChars] using splitNl_no_nl (hno l (List.mem_cons_self l []))
  | cons l2 ls2 =>
    show splitNlChars (l ++ '\n' :: joinNlChars (l2 :: ls2)) = l :: l2 :: ls2
    rw [splitNl_append (hno l (List.mem_cons_self l (l2 :: ls2)))]
    rw [ih (by simp) (fun x hx => hno x (List.mem_cons_of_mem l hx))]

theorem takeWhile_all_append {α : Type} (p : α → Bool) :
    ∀ (xs : List α) (y : α) (ys : List α), (∀ x ∈ xs, p x = true) → p y = false →
      (xs ++ y :: ys).takeWhile p = xs ∧ (xs ++ y :: ys).dropWhile p = y :: ys := by
intro xs y ys hall hy
induction xs with
| nil => simp [List.takeWhile_cons, List.dropWhile_cons, hy]
| cons x xs ih =>
  have hx : p x = true := hall x (List.mem_cons_self x xs)
  have ih' := ih (fun z hz => hall z (List.mem_cons_of_mem x hz))
  simp [List.takeWhile_cons, List.dropWhile_cons, hx, ih'.1, ih'.2]

/-! ## C2: round-trip machinery — normalization -/

theorem map_core_renumberFrom :
    ∀ (i : Nat) (l : SubtitleDocument),
      (renumberFrom i l).map entryCore = l.map entryCore := by
intro i l
induction l generalizing i with
| nil => rfl
| cons e es ih => simp [renumberFrom, entryCore, ih]

theorem map_start_renumberFrom :
    ∀ (i : Nat) (l : SubtitleDocument),
      (renumberFrom i l).map (fun e => e.start) = l.map (fun e => e.start) := by
intro i l
induction l generalizing i with
| nil => rfl
| cons e es ih => simp [renumberFrom, ih]

theorem map_index_renumberFrom :
    ∀ (i : Nat) (l : SubtitleDocument),
      (renumberFrom i l).map (fun e => e.index) = List.range' i l.length := by
intro i l
induction l generalizing i with
| nil => rfl
| cons e es ih => simp [renumberFrom, ih, List.range']

theorem length_renumberFrom (i : Nat) (l : SubtitleDocument) :
    (renumberFrom i l).length = l.length := by
have := congrArg List.length (map_core_renumberFrom i l)
simpa using this

theorem valid_renumberFrom {l : SubtitleDocument} (h : ∀ e ∈ l, ValidEntry e) :
    ∀ i, ∀ e ∈ renumberFrom i l, ValidEntry e := by
induction l with
| nil =>
  intro i e he
  simp [renumberFrom] at he
| cons x xs ih =>
  intro i e he
  rw [renumberFrom] at he
  rcases List.mem_cons.mp he with rfl | he
  · exact h x (List.mem_cons_self x xs)
  · exact ih (fun z hz => h z (List.mem_cons_of_mem x hz)) (i + 1) e he

theorem pairwise_start_renumberFrom {l : SubtitleDocument}
    (h : l.Pairwise startLE) (i : Nat) : (renumberFrom i l).Pairwise startLE := by
have h1 : (l.map (fun e => e.start)).Pairwise (fun a b : Nat => a ≤ b) :=
  List.pairwise_map.mpr h
rw [← map_start_renumberFrom i l] at h1
have h2 := (@List.pairwise_map SubtitleEntry Nat (fun e => e.start)
  (fun a b : Nat => a ≤ b) (renumberFrom i l)).mp h1
exact h2

theorem valid_normalizeDoc {doc : SubtitleDocument} (h : ValidDoc doc) :
    ∀ e ∈ normalizeDoc doc, ValidEntry e := by
apply valid_renumberFrom
intro e he
exact h e ((List.perm_insertionSort startLE doc).mem_iff.mp he)

theorem map_index_normalizeDoc (doc : SubtitleDocument) :
    (normalizeDoc doc).map (fun e => e.index) = List.range' 1 doc.length := by
rw [normalizeDoc, map_index_renumberFrom]
rw [(List.perm_insertionSort startLE doc).length_eq]

theorem length_normalizeDoc (doc : SubtitleDocument) :
    (normalizeDoc doc).length = doc.length := by
rw [normalizeDoc, length_renumberFrom, (List.perm_insertionSort startLE doc).length_eq]

/-! ## C2: round-trip machinery — parsing the rendered blocks -/

theorem renderLines_cons (e : SubtitleEntry) (es : SubtitleDocument) :
    renderLines (e :: es) =
      natChars e.index :: timeLineChars e.start e.stop ::
        (splitNlChars e.text.data ++ [] :: renderLines es) := by
simp [renderLines, renderBlock, List.flatMap_cons]

theorem parseBlocks_renderLines :
    ∀ es : SubtitleDocument, (∀ e ∈ es, ValidEntry e) →
      ∀ fuel, (renderLines es).length ≤ fuel →
        parseBlocks fuel (renderLines es) = .ok es := by
intro es
induction es with
| nil =>
  intro _ fuel _
  show parseBlocks fuel [] = .ok []
  cases fuel <;> rfl
| cons e es ih =>
  intro hval fuel hfuel
  obtain ⟨hlt, hstop, htext⟩ := hval e (List.mem_cons_self e es)
  have hstart : e.start < 360000000 := by omega
  have hTne : splitNlChars e.text.data ≠ [] := splitNlChars_ne_nil _
  have hTlen : 1 ≤ (splitNlChars e.text.data).length := List.length_pos.mpr hTne
  rw [renderLines_cons] at hfuel ⊢
  simp only [List.length_cons, List.length_append] at hfuel
  cases fuel with
  | zero => omega
  | succ f =>
    rw [parseBlocks.eq_def]
    dsimp only
    rw [if_neg (by simp [isBlankLine_natChars])]
    rw [parseIndexLine_natChars, parseTimeLine_format hstart hstop]
    dsimp only
    have htake := takeWhile_all_append (fun x => !isBlankLine x)
      (splitNlChars e.text.data) [] (renderLines es)
      (fun x hx => by simp [htext x hx]) (by simp [isBlankLine])
    rw [htake.1, htake.2]
    rw [if_neg hTne]
    have hrec : parseBlocks f ([] :: renderLines es) = .ok es := by
      cases f with
      | zero => omega
      | succ f2 =>
        rw [parseBlocks.eq_def]
        dsimp only
        rw [if_pos (by rfl)]
        exact ih (fun z hz => hval z (List.mem_cons_of_mem e hz)) f2 (by omega)
    rw [hrec]
    dsimp only
    have htext' : String.mk (joinNlChars (splitNlChars e.text.data)) = e.text := by
      rw [joinNl_splitNl]
    rw [htext']

theorem no_nl_renderLines (es : SubtitleDocument) :
    ∀ l ∈ renderLines es, '\n' ∉ l := by
intro l hl
rw [renderLines] at hl
obtain ⟨e, he, hle⟩ := List.mem_flatMap.mp hl
rcases List.mem_append.mp hle with hle | hle
· rw [renderBlock] at hle
  rcases List.mem_cons.mp hle with rfl | hle
  · exact no_nl_natChars _
  rcases List.mem_cons.mp hle with rfl | hle
  · exact no_nl_timeLineChars _ _
  · exact no_nl_mem_splitNlChars _ l hle
· simp only [List.mem_singleton] at hle
  subst hle
  simp

/-- C2: for every valid document `D`, `parse (serialize D)` succeeds and
equals `D` up to renumbering — entries' start/end/text are preserved (as a
permutation) and the re-parsed indices are exactly `1..N` assigned in
ascending start order, regardless of the indices `D` had. -/
theorem parse_serialize_c2 (doc : SubtitleDocument) (h : ValidDoc doc) :
    parse (serialize doc) = .ok (normalizeDoc doc) ∧
    List.Perm ((normalizeDoc doc).map entryCore) (doc.map entryCore) ∧
    (normalizeDoc doc).map (fun e => e.index) = List.range' 1 doc.length ∧
    (normalizeDoc doc).Pairwise startLE := by
refine ⟨?_, ?_, map_index_normalizeDoc doc, ?_⟩
· have hvalnd := valid_normalizeDoc h
  have hnodup : ((normalizeDoc doc).map (fun e => e.index)).Nodup := by
    rw [map_index_normalizeDoc]
    exact List.nodup_range' 1 doc.length
  by_cases hdoc : normalizeDoc doc = []
  · rw [serialize, hdoc]
    decide
  · obtain ⟨e0, es0, hnd⟩ := List.exists_cons_of_ne_nil hdoc
    have hlines_ne : renderLines (normalizeDoc doc) ≠ [] := by
      rw [hnd, renderLines_cons]
      simp
    have hnonl : ∀ l ∈ renderLines (normalizeDoc doc), '\n' ∉ l :=
      no_nl_renderLines _
    have hsplit :
        splitNlChars (String.mk (joinNlChars (renderLines (normalizeDoc doc)))).data =
          renderLines (normalizeDoc doc) := by
      show splitNlChars (joinNlChars (renderLines (normalizeDoc doc))) = _
      exact splitNl_joinNl _ hlines_ne hnonl
    rw [serialize, parse, hsplit]
    rw [parseBlocks_renderLines _ hvalnd _ le_rfl]
    dsimp only
    rw [if_pos hnodup]
· rw [normalizeDoc, map_core_renumberFrom]
  exact (List.perm_insertionSort startLE doc).map entryCore
· rw [normalizeDoc]
  exact pairwise_start_renumberFrom (List.sorted_insertionSort startLE doc) 1

/-- C2 witness: a concrete out-of-order document with clashing indices and
multi-line text. -/
theorem parse_serialize_c2_witness :
    ValidDoc [⟨7, 5000, 8000, "World"⟩, ⟨7, 1000, 2000, "Hi\nthere"⟩] ∧
      (parse (serialize [⟨7, 5000, 8000, "World"⟩, ⟨7, 1000, 2000, "Hi\nthere"⟩]) =
          .ok (normalizeDoc [⟨7, 5000, 8000, "World"⟩, ⟨7, 1000, 2000, "Hi\nthere"⟩]) ∧
        List.Perm
          ((normalizeDoc [⟨7, 5000, 8000, "World"⟩, ⟨7, 1000, 2000, "Hi\nthere"⟩]).map
            entryCore)
          (([⟨7, 5000, 8000, "World"⟩, ⟨7, 1000, 2000, "Hi\nthere"⟩] :
            SubtitleDocument).map entryCore) ∧
        (normalizeDoc [⟨7, 5000, 8000, "World"⟩, ⟨7, 1000, 2000, "Hi\nthere"⟩]).map
            (fun e => e.index) =
          List.range' 1
            ([⟨7, 5000, 8000, "World"⟩, ⟨7, 1000, 2000, "Hi\nthere"⟩] :
              SubtitleDocument).length ∧
        (normalizeDoc
            [⟨7, 5000, 8000, "World"⟩, ⟨7, 1000, 2000, "Hi\nthere"⟩]).Pairwise startLE) :=
⟨by decide, parse_serialize_c2 [⟨7, 5000, 8000, "World"⟩, ⟨7, 1000, 2000, "Hi\nthere"⟩]
  (by decide)⟩

end NMM
